import Mathlib

/-!
# Weighted round-robin picker (`balancer/wrr/weight_picker.go`)

A shallow embedding of the Go package `wrr`: the default weight function,
`PickerBuilder.Build`, `Picker.Pick` and the `Done` callback that `Pick` returns.

Modelling conventions
* `uint32` values are natural numbers; every arithmetic operation of the source is
  followed by an explicit reduction modulo `2 ^ 32`.
* A `*conn` pointer held by the picker is the index of the entry in
  `Picker.connections`; the entries of one picker are distinct pointers, as they are in
  every picker that `Build` returns.
* `Pick` and `Done` are atomic steps on the picker state; the mutex operations of one
  caller are modelled apart, as a sequence of lock events (`Picker.PickEvents`).
* `info.ReadySCs` is a Go map; `Build` receives it as the list of key/value pairs in the
  order in which the `range` statement yields them.
-/

namespace wrr

/-- The modulus of `uint32` arithmetic. -/
def uint32Size : Nat := 4294967296

/-- Go `math.MaxUint32`. -/
def MaxUint32 : Nat := 4294967295

/-- Go `a + b` on `uint32`. -/
def u32add (a b : Nat) : Nat := (a + b) % uint32Size

/-- Go `a - b` on `uint32`. -/
def u32sub (a b : Nat) : Nat := (a % uint32Size + (uint32Size - b % uint32Size)) % uint32Size

/-- Dynamic values of the Go type `any`, as far as the package inspects them. -/
inductive GoAny where
  | nil
  | uint32 (v : Nat)
  | int (v : Int)
  | string (s : String)
  | mapStringAny (m : List (String × GoAny))
  | mapStringString (m : List (String × String))

/-- Go `m[key]` on a `map[string]any`: the zero value `nil` when the key is missing. -/
def GoAny.index (m : List (String × GoAny)) (key : String) : GoAny :=
  match m.lookup key with
  | some v => v
  | none => GoAny.nil

/-- The fields of `resolver.Address` that the package reads. -/
structure Address where
  Addr : String
  Metadata : GoAny

/-- Go `base.SubConnInfo`. -/
structure SubConnInfo where
  Address : Address

/-- A `balancer.SubConn` handle; the tests use `mockSubConn` with an integer id. -/
abbrev SubConn := Nat

/-- Go `GetWeightFunc`. -/
abbrev GetWeightFunc := SubConnInfo → Nat

/-- Go `defaultGetWeight`. -/
def defaultGetWeight (ci : SubConnInfo) : Nat :=
  match ci.Address.Metadata with
  | GoAny.mapStringAny md =>
    let weightVal := GoAny.index md "weight"
    match weightVal with
    | GoAny.uint32 weight => weight
    | _ => 0
  | _ => 10

/-- Go `conn` (without its mutex). -/
structure conn where
  SubConn : Option SubConn
  connInfo : Option SubConnInfo
  name : String
  weight : Nat
  efficientWeight : Nat
  currentWeight : Nat

/-- Go `Picker` (without its mutex). -/
structure Picker where
  connections : List conn

/-- Go `PickerBuilder`. -/
structure PickerBuilder where
  getWeightFunc : GetWeightFunc

/-- Go `NewPickerBuilder()` with no options. -/
def NewPickerBuilder : PickerBuilder := { getWeightFunc := defaultGetWeight }

/-- Go `WithGetWeightFunc(fn)` applied to a builder. -/
def WithGetWeightFunc (fn : GetWeightFunc) (_b : PickerBuilder) : PickerBuilder :=
  { getWeightFunc := fn }

/-- Go `PickerBuilder.Build`; `readySCs` lists `info.ReadySCs` in iteration order. -/
def PickerBuilder.Build (b : PickerBuilder) (readySCs : List (SubConn × SubConnInfo)) : Picker :=
  { connections := readySCs.map fun p =>
      let weight := b.getWeightFunc p.2
      { SubConn := some p.1
        connInfo := some p.2
        weight := weight
        currentWeight := weight
        efficientWeight := weight
        name := p.2.Address.Addr } }

/-- The error values `Pick` can return. -/
inductive PickError where
  | ErrNoSubConnAvailable
  deriving DecidableEq, Repr

/-- Go `balancer.PickResult`: `SubConn` is the selected `*conn`, given as its index in
`Picker.connections`; the `Done` closure is `Picker.Done` at that index. -/
structure PickResult where
  SubConn : Nat
  deriving DecidableEq, Repr

/-- Go `balancer.DoneInfo`: `Err` is `none` for a nil error. -/
structure DoneInfo where
  Err : Option String

/-- The scan loop of `Pick` (lines 78 to 86) over the entries not yet visited.
`i` is the index of the head entry, `totalWeight` the running total and `maxConn` the
current best entry: its index together with the entry as the scan left it. Returns the
updated entries, the total and the best entry. -/
def Pick.scan : List conn → Nat → Nat → Option (Nat × conn) → List conn × Nat × Option (Nat × conn)
  | [], _, totalWeight, maxConn => ([], totalWeight, maxConn)
  | con :: rest, i, totalWeight, maxConn =>
    let totalWeight1 := u32add totalWeight con.efficientWeight
    let con1 := { con with currentWeight := u32add con.currentWeight con.efficientWeight }
    let maxConn1 :=
      match maxConn with
      | none => some (i, con1)
      | some m => if con1.currentWeight > m.2.currentWeight then some (i, con1) else some m
    let r := Pick.scan rest (i + 1) totalWeight1 maxConn1
    (con1 :: r.1, r.2.1, r.2.2)

/-- Apply `f` to the entry at index `i` (a write through a `*conn` pointer). -/
def updateAt (f : conn → conn) : List conn → Nat → List conn
  | [], _ => []
  | c :: cs, 0 => f c :: cs
  | c :: cs, i + 1 => c :: updateAt f cs i

/-- Go `Picker.Pick`: the returned pair is the Go result `(PickResult, error)` and the
picker state after the call. -/
def Picker.Pick (p : Picker) : Except PickError PickResult × Picker :=
  if p.connections.length = 0 then
    (Except.error PickError.ErrNoSubConnAvailable, p)
  else
    let r := Pick.scan p.connections 0 0 none
    match r.2.2 with
    | none => (Except.error PickError.ErrNoSubConnAvailable, { connections := r.1 })
    | some m =>
      let totalWeight := r.2.1
      (Except.ok { SubConn := m.1 },
       { connections :=
           updateAt (fun c => { c with currentWeight := u32sub c.currentWeight totalWeight })
             r.1 m.1 })

/-- The body of the `Done` closure (lines 95 to 109) on the captured entry `maxConn`. -/
def conn.Done (info : DoneInfo) (maxConn : conn) : conn :=
  if info.Err ≠ none ∧ maxConn.weight = 0 then
    maxConn
  else if info.Err = none ∧ maxConn.efficientWeight = MaxUint32 then
    maxConn
  else if info.Err ≠ none then
    { maxConn with efficientWeight := u32sub maxConn.efficientWeight 1 }
  else
    { maxConn with efficientWeight := u32add maxConn.efficientWeight 1 }

/-- Invoking the `Done` closure of the pick result `res` on the picker state `p`. -/
def Picker.Done (res : PickResult) (info : DoneInfo) (p : Picker) : Picker :=
  { connections := updateAt (conn.Done info) p.connections res.SubConn }

/-- Call `Pick` `n` times in sequence, no `Done` in between: the results in call order
and the final state. -/
def Picker.picks : Nat → Picker → List (Except PickError PickResult) × Picker
  | 0, p => ([], p)
  | n + 1, p =>
    let r := p.Pick
    let rs := Picker.picks n r.2
    (r.1 :: rs.1, rs.2)

/-- The index selected by a pick result, if the pick succeeded. -/
def selectedIndex : Except PickError PickResult → Option Nat
  | Except.ok res => some res.SubConn
  | Except.error _ => none

/-- The name of the entry selected by a pick result, read in the picker `p`. -/
def selectedName (p : Picker) : Except PickError PickResult → Option String
  | Except.ok res => (p.connections.get? res.SubConn).map conn.name
  | Except.error _ => none

/-- How many of the pick results selected entry `i`. -/
def selectionCount (i : Nat) (rs : List (Except PickError PickResult)) : Nat :=
  (rs.filter fun r => selectedIndex r == some i).length

/-- The picker of `TestWeightBalancer_Pick`. -/
def testPicker : Picker :=
  { connections :=
      [ { SubConn := none, connInfo := none, name := "weight-5",
          weight := 5, efficientWeight := 5, currentWeight := 5 },
        { SubConn := none, connInfo := none, name := "weight-4",
          weight := 4, efficientWeight := 4, currentWeight := 4 },
        { SubConn := none, connInfo := none, name := "weight-3",
          weight := 3, efficientWeight := 3, currentWeight := 3 } ] }

/-- A ready set of backends without metadata, one per address. -/
def readyOf (addrs : List String) : List (SubConn × SubConnInfo) :=
  addrs.enum.map fun p => (p.1, { Address := { Addr := p.2, Metadata := GoAny.nil } })

/-- A ready set whose backends carry the given weights in their metadata map, under the
key "weight", as in the "default" case of `TestWeightBalancer_PickerBuilder`. -/
def readyWeights (ws : List Nat) : List (SubConn × SubConnInfo) :=
  ws.enum.map fun p =>
    (p.1, { Address := { Addr := "backend",
                         Metadata := GoAny.mapStringAny [("weight", GoAny.uint32 p.2)] } })

/-- The ready set of the "default" case of `TestWeightBalancer_PickerBuilder`. -/
def testReadySCs : List (SubConn × SubConnInfo) :=
  [ (1, { Address := { Addr := "weight-1",
                       Metadata := GoAny.mapStringAny [("weight", GoAny.uint32 15)] } }),
    (2, { Address := { Addr := "weight-2",
                       Metadata := GoAny.mapStringAny [("weight", GoAny.uint32 20)] } }),
    (3, { Address := { Addr := "weight-3",
                       Metadata := GoAny.mapStringAny [("weight", GoAny.uint32 25)] } }) ]

/-- Invoke a sequence of `Done` callbacks, in order, on the entry they all captured. -/
def conn.DoneAll (infos : List DoneInfo) (maxConn : conn) : conn :=
  infos.foldl (fun c info => conn.Done info c) maxConn

/-- One call made on a picker: a `Pick`, or the invocation of the `Done` closure of an
earlier pick result with an outcome. -/
inductive Action where
  | pick
  | done (res : PickResult) (info : DoneInfo)

/-- The picker state after one call. -/
def Picker.step (p : Picker) : Action → Picker
  | Action.pick => p.Pick.2
  | Action.done res info => p.Done res info

/-- The picker state after a finite sequence of calls, made in order. -/
def Picker.run (p : Picker) (acts : List Action) : Picker :=
  acts.foldl Picker.step p

/-- What the scan adds to an entry: `con.currentWeight += con.efficientWeight`. -/
def conn.scanned (con : conn) : conn :=
  { con with currentWeight := u32add con.currentWeight con.efficientWeight }

/-- The value of `totalWeight` at the end of the scan of a whole list (see
`Pick.scan_total`): the sum of the effective weights, reduced modulo `2 ^ 32`. -/
def totalOf (l : List conn) : Nat :=
  (l.map conn.efficientWeight).sum % uint32Size

/-! ### The reference scheduler of the specification

The selection algorithm as the specification words it (steps 1 to 6), with
`currentWeight` held as a signed integer that never wraps. It is compared with
`Picker.Pick`; it is not a translation of the Go source. -/

/-- The `BackendEntry` of the specification, `currentWeight` being a signed integer. -/
structure BackendEntry where
  staticWeight : Nat
  currentWeight : Int
  effectiveWeight : Nat

/-- Step 3 of the specification: for every entry in list order, add its effective weight
to the total and to its own counter, and make it the best entry when no best is set or
when its counter exceeds the counter of the best (strictly). -/
def Reference.scan :
    List BackendEntry → Nat → Int → Option (Nat × BackendEntry) →
      List BackendEntry × Int × Option (Nat × BackendEntry)
  | [], _, totalWeight, best => ([], totalWeight, best)
  | e :: rest, i, totalWeight, best =>
    let totalWeight1 := totalWeight + e.effectiveWeight
    let e1 := { e with currentWeight := e.currentWeight + e.effectiveWeight }
    let best1 :=
      match best with
      | none => some (i, e1)
      | some m => if e1.currentWeight > m.2.currentWeight then some (i, e1) else some m
    let r := Reference.scan rest (i + 1) totalWeight1 best1
    (e1 :: r.1, r.2.1, r.2.2)

/-- Step 5 of the specification: subtract the total from the counter of entry `i`. -/
def Reference.settle (totalWeight : Int) : List BackendEntry → Nat → List BackendEntry
  | [], _ => []
  | e :: es, 0 => { e with currentWeight := e.currentWeight - totalWeight } :: es
  | e :: es, i + 1 => e :: Reference.settle totalWeight es i

/-- Steps 1 to 6 of the specification: the index of the selected entry (`none` for
`NoBackendAvailable`) and the entries after the pick. -/
def Reference.pick (es : List BackendEntry) : Option Nat × List BackendEntry :=
  if es.length = 0 then
    (none, es)
  else
    let r := Reference.scan es 0 0 none
    match r.2.2 with
    | none => (none, r.1)
    | some m => (some m.1, Reference.settle r.2.1 r.1 m.1)

/-- The reference scheduler called `n` times in sequence, no outcome reported. -/
def Reference.picks : Nat → List BackendEntry → List (Option Nat) × List BackendEntry
  | 0, es => ([], es)
  | n + 1, es =>
    let r := Reference.pick es
    let rs := Reference.picks n r.2
    (r.1 :: rs.1, rs.2)

/-- The reference entries that start from the same weights as the picker `p`. -/
def Reference.ofPicker (p : Picker) : List BackendEntry :=
  p.connections.map fun c =>
    { staticWeight := c.weight
      currentWeight := (c.currentWeight : Int)
      effectiveWeight := c.efficientWeight }

/-! ### Lock events of `Pick` and `Done`

The mutex operations and the field accesses of the source, in program order, as one
caller performs them. Entries are named by their index in `Picker.connections`. -/

/-- The fields of `conn` that the code reads or writes after `Build`. -/
inductive Field where
  | weight
  | efficientWeight
  | currentWeight
  deriving DecidableEq, Repr

/-- One step of a caller: `con.mutex.Lock()`, `con.mutex.Unlock()`, or a read or a write
of a field of entry `i`. -/
inductive Event where
  | lock (i : Nat)
  | unlock (i : Nat)
  | read (i : Nat) (f : Field)
  | write (i : Nat) (f : Field)
  deriving DecidableEq, Repr

/-- The events of the scan loop of `Pick` (lines 78 to 86), with the arguments of
`Pick.scan`. The comparison of line 82 reads `con.currentWeight` and
`maxConn.currentWeight` only when `maxConn` is not nil. -/
def Pick.scanEvents : List conn → Nat → Option (Nat × conn) → List Event
  | [], _, _ => []
  | con :: rest, i, maxConn =>
    let con1 := { con with currentWeight := u32add con.currentWeight con.efficientWeight }
    let compare :=
      match maxConn with
      | none => []
      | some m => [Event.read i Field.currentWeight, Event.read m.1 Field.currentWeight]
    let maxConn1 :=
      match maxConn with
      | none => some (i, con1)
      | some m => if con1.currentWeight > m.2.currentWeight then some (i, con1) else some m
    [Event.lock i,
     Event.read i Field.efficientWeight,
     Event.read i Field.currentWeight, Event.read i Field.efficientWeight,
     Event.write i Field.currentWeight]
      ++ compare ++ [Event.unlock i] ++ Pick.scanEvents rest (i + 1) maxConn1

/-- The events of one `Pick` call (lines 73 to 92). -/
def Picker.PickEvents (p : Picker) : List Event :=
  if p.connections.length = 0 then
    []
  else
    Pick.scanEvents p.connections 0 none ++
      match (Pick.scan p.connections 0 0 none).2.2 with
      | none => []
      | some m =>
        [Event.lock m.1, Event.read m.1 Field.currentWeight,
         Event.write m.1 Field.currentWeight, Event.unlock m.1]

/-- The events of the `Done` closure (lines 96 to 108) of a pick that selected entry `i`,
whose value is `maxConn`; the deferred unlock comes last on every path. -/
def conn.DoneEvents (i : Nat) (info : DoneInfo) (maxConn : conn) : List Event :=
  let guard1 := if info.Err ≠ none then [Event.read i Field.weight] else []
  let guard2 := if info.Err = none then [Event.read i Field.efficientWeight] else []
  if info.Err ≠ none ∧ maxConn.weight = 0 then
    [Event.lock i] ++ guard1 ++ [Event.unlock i]
  else if info.Err = none ∧ maxConn.efficientWeight = MaxUint32 then
    [Event.lock i] ++ guard1 ++ guard2 ++ [Event.unlock i]
  else
    [Event.lock i] ++ guard1 ++ guard2
      ++ [Event.read i Field.efficientWeight, Event.write i Field.efficientWeight,
          Event.unlock i]

/-- The first read or write of an entry's `currentWeight` or `efficientWeight` made
without holding that entry's mutex, with the mutexes held at that moment; `none` when
every such access is made under the entry's own mutex. -/
def firstUnguarded : List Nat → List Event → Option (Event × List Nat)
  | _, [] => none
  | held, Event.lock i :: es => firstUnguarded (i :: held) es
  | held, Event.unlock i :: es => firstUnguarded (held.erase i) es
  | held, Event.read i f :: es =>
    if f = Field.weight ∨ i ∈ held then firstUnguarded held es
    else some (Event.read i f, held)
  | held, Event.write i f :: es =>
    if f = Field.weight ∨ i ∈ held then firstUnguarded held es
    else some (Event.write i f, held)

/-! ## Theorems -/

theorem updateAt_length (f : conn → conn) (l : List conn) (i : Nat) :
    (updateAt f l i).length = l.length := by
  induction l generalizing i with
  | nil => rfl
  | cons c cs ih =>
    cases i with
    | zero => rfl
    | succ j => simp [updateAt, ih]

theorem Pick.scan_length (l : List conn) (i t : Nat) (mc : Option (Nat × conn)) :
    (Pick.scan l i t mc).1.length = l.length := by
  induction l generalizing i t mc with
  | nil => rfl
  | cons c cs ih => simp [Pick.scan, ih]

/-- Once a best entry is set, the scan ends with a best entry: the same one or one of the
entries it visited. -/
theorem Pick.scan_some (l : List conn) (i t : Nat) (m : Nat × conn) :
    ∃ m1, (Pick.scan l i t (some m)).2.2 = some m1 ∧
      (m1.1 = m.1 ∨ (i ≤ m1.1 ∧ m1.1 < i + l.length)) := by
  induction l generalizing i t m with
  | nil => exact ⟨m, rfl, Or.inl rfl⟩
  | cons c cs ih =>
    simp only [Pick.scan, List.length_cons]
    split_ifs with h
    · obtain ⟨m1, h1, h2⟩ := ih (i + 1) (u32add t c.efficientWeight)
        (i, { c with currentWeight := u32add c.currentWeight c.efficientWeight })
      refine ⟨m1, h1, Or.inr ?_⟩
      rcases h2 with h2 | h2
      · simp only at h2
        omega
      · omega
    · obtain ⟨m1, h1, h2⟩ := ih (i + 1) (u32add t c.efficientWeight) m
      refine ⟨m1, h1, ?_⟩
      rcases h2 with h2 | h2
      · exact Or.inl h2
      · right
        omega

/-- On a non-empty list the scan started without a best entry ends with one of the
visited entries as best. -/
theorem Pick.scan_none_cons (c : conn) (cs : List conn) (i t : Nat) :
    ∃ m1, (Pick.scan (c :: cs) i t none).2.2 = some m1 ∧
      i ≤ m1.1 ∧ m1.1 < i + (c :: cs).length := by
  simp only [Pick.scan, List.length_cons]
  obtain ⟨m1, h1, h2⟩ := Pick.scan_some cs (i + 1) (u32add t c.efficientWeight)
    (i, { c with currentWeight := u32add c.currentWeight c.efficientWeight })
  refine ⟨m1, h1, ?_⟩
  rcases h2 with h2 | h2
  · simp only at h2
    omega
  · omega

theorem Picker.Pick_nil (p : Picker) (h : p.connections = []) :
    p.Pick = (Except.error PickError.ErrNoSubConnAvailable, p) := by
  simp [Picker.Pick, h]

theorem Picker.Pick_ne_nil (p : Picker) (h : p.connections ≠ []) :
    ∃ res, p.Pick.1 = Except.ok res ∧ res.SubConn < p.connections.length ∧
      p.Pick.2.connections.length = p.connections.length := by
  obtain ⟨l⟩ := p
  cases l with
  | nil => exact absurd rfl h
  | cons c cs =>
    obtain ⟨m1, h1, h2, h3⟩ := Pick.scan_none_cons c cs 0 0
    refine ⟨⟨m1.1⟩, ?_, ?_, ?_⟩
    · simp [Picker.Pick, h1]
    · simpa using h3
    · simp only [Picker.Pick, h1, List.length_cons]
      simp [updateAt_length, Pick.scan_length]

theorem Picker.picks_nil (p : Picker) (h : p.connections = []) (n : Nat) :
    p.picks n = (List.replicate n (Except.error PickError.ErrNoSubConnAvailable), p) := by
  induction n with
  | zero => rfl
  | succ k ih => simp [Picker.picks, Picker.Pick_nil p h, ih, List.replicate_succ]

/-- C1: four backends of weight 1 (sum 4), four picks, no callback: the first entry is
selected all four times and the others never, because its counter wraps below zero to a
large unsigned value; the claim gives each entry exactly one selection. -/
theorem full_cycle_uniform_four :
    (NewPickerBuilder.Build (readyWeights [1, 1, 1, 1])).connections.map conn.weight
        = [1, 1, 1, 1] ∧
      ((NewPickerBuilder.Build (readyWeights [1, 1, 1, 1])).picks 4).1.map selectedIndex
        = [some 0, some 0, some 0, some 0] ∧
      selectionCount 0 ((NewPickerBuilder.Build (readyWeights [1, 1, 1, 1])).picks 4).1 = 4 ∧
      selectionCount 1 ((NewPickerBuilder.Build (readyWeights [1, 1, 1, 1])).picks 4).1 = 0 ∧
      ((NewPickerBuilder.Build (readyWeights [1, 1, 1, 1])).picks 4).2.connections.map
        conn.currentWeight = [4294967285, 5, 5, 5] := by
  refine ⟨?_, ?_, ?_, ?_, ?_⟩ <;> decide

/-- C2: on the picker of the test (weight-5, weight-4, weight-3 with all three weight
fields equal to 5, 4, 3), five successive `Pick` calls without any `Done` all succeed and
select weight-5, weight-4, weight-3, weight-5, weight-4 in this order. -/
theorem test_pick_sequence :
    (testPicker.picks 5).1 =
        [Except.ok ⟨0⟩, Except.ok ⟨1⟩, Except.ok ⟨2⟩, Except.ok ⟨0⟩, Except.ok ⟨1⟩] ∧
      (testPicker.picks 5).1.map (selectedName testPicker) =
        [some "weight-5", some "weight-4", some "weight-3", some "weight-5", some "weight-4"] := by
  constructor
  · rfl
  · decide

/-- C3: four backends without metadata, so each of default weight 10 (sum 40), forty
picks, no callback: the first backend is selected every time and the other three, whose
weights are positive, are never selected. -/
theorem starved_backend_in_full_cycle :
    (NewPickerBuilder.Build (readyOf ["a", "b", "c", "d"])).connections.map conn.weight
        = [10, 10, 10, 10] ∧
      ((NewPickerBuilder.Build (readyOf ["a", "b", "c", "d"])).picks 40).1.map selectedIndex
        = List.replicate 40 (some 0) ∧
      selectionCount 1 ((NewPickerBuilder.Build (readyOf ["a", "b", "c", "d"])).picks 40).1 = 0 ∧
      selectionCount 2 ((NewPickerBuilder.Build (readyOf ["a", "b", "c", "d"])).picks 40).1 = 0 ∧
      selectionCount 3 ((NewPickerBuilder.Build (readyOf ["a", "b", "c", "d"])).picks 40).1 = 0 := by
  refine ⟨?_, ?_, ?_, ?_, ?_⟩ <;> decide

/-- C4: `Pick` returns `ErrNoSubConnAvailable` exactly when the entry list is empty. On
an empty list every call returns that error and leaves the picker unchanged; on a
non-empty list, whatever the weights, it returns no error and a result whose `SubConn`
is one of the entries of the list (the `Done` callback is `Picker.Done` at that entry). -/
theorem pick_error_iff_empty (p : Picker) :
    (p.Pick.1 = Except.error PickError.ErrNoSubConnAvailable ↔ p.connections = []) ∧
      (p.connections = [] →
        ∀ n, p.picks n = (List.replicate n (Except.error PickError.ErrNoSubConnAvailable), p)) ∧
      (p.connections ≠ [] →
        ∃ res c, p.Pick.1 = Except.ok res ∧ p.connections.get? res.SubConn = some c) := by
  refine ⟨⟨fun herr => ?_, fun h => ?_⟩, fun h n => Picker.picks_nil p h n, fun h => ?_⟩
  · by_contra hne
    obtain ⟨res, hres, -, -⟩ := Picker.Pick_ne_nil p hne
    rw [hres] at herr
    cases herr
  · rw [Picker.Pick_nil p h]
  · obtain ⟨res, hres, hlt, -⟩ := Picker.Pick_ne_nil p h
    exact ⟨res, p.connections.get ⟨res.SubConn, hlt⟩, hres, List.get?_eq_get hlt⟩

/-- C4 at concrete pickers: an empty picker, and a picker whose entries all have weight 0. -/
theorem pick_error_iff_empty_witness :
    ((⟨[]⟩ : Picker).picks 3 =
        (List.replicate 3 (Except.error PickError.ErrNoSubConnAvailable), ⟨[]⟩)) ∧
      ∃ res c, (NewPickerBuilder.Build (readyWeights [0, 0])).Pick.1 = Except.ok res ∧
        (NewPickerBuilder.Build (readyWeights [0, 0])).connections.get? res.SubConn = some c :=
  ⟨(pick_error_iff_empty ⟨[]⟩).2.1 rfl 3,
   (pick_error_iff_empty (NewPickerBuilder.Build (readyWeights [0, 0]))).2.2
     (by simp [PickerBuilder.Build, readyWeights])⟩

/-- C5: an entry with static weight 1 and effective weight 0 that receives a failure ends
with effective weight 4294967295, not 0: the decrement wraps. The state is reachable:
build one backend of weight 1, then pick and report a failure, twice. -/
theorem failure_at_zero_wraps :
    (conn.Done ⟨some "rpc error"⟩
        { SubConn := none, connInfo := none, name := "a",
          weight := 1, efficientWeight := 0, currentWeight := 1 }).efficientWeight
        = 4294967295 ∧
      ((NewPickerBuilder.Build (readyWeights [1])).Pick.2.Done ⟨0⟩
          ⟨some "rpc error"⟩).connections.map conn.efficientWeight = [0] ∧
      (((NewPickerBuilder.Build (readyWeights [1])).Pick.2.Done ⟨0⟩
          ⟨some "rpc error"⟩).Pick.2.Done ⟨0⟩
            ⟨some "rpc error"⟩).connections.map conn.efficientWeight = [4294967295] := by
  refine ⟨?_, ?_, ?_⟩ <;> decide

/-- C6: a success outcome (nil error) on an entry with effective weight `e` sets it to
`e + 1` when `e < 2^32 - 1` and leaves it at `2^32 - 1` when `e = 2^32 - 1`; the result
is never 0. The static weight plays no part. -/
theorem done_success_saturating (c : conn) (info : DoneInfo) (hinfo : info.Err = none)
    (hc : c.efficientWeight ≤ MaxUint32) :
    (c.efficientWeight < MaxUint32 →
        (conn.Done info c).efficientWeight = c.efficientWeight + 1) ∧
      (c.efficientWeight = MaxUint32 → (conn.Done info c).efficientWeight = MaxUint32) ∧
      (conn.Done info c).efficientWeight ≠ 0 := by
  unfold MaxUint32 at *
  refine ⟨fun hlt => ?_, fun heq => ?_, ?_⟩
  · have hne : c.efficientWeight ≠ 4294967295 := by omega
    simp only [conn.Done, hinfo, MaxUint32, u32add, uint32Size, hne, ne_eq, not_true_eq_false,
      false_and, and_false, if_false]
    omega
  · simp [conn.Done, hinfo, MaxUint32, heq]
  · by_cases heq : c.efficientWeight = 4294967295
    · simp [conn.Done, hinfo, MaxUint32, heq]
    · simp only [conn.Done, hinfo, MaxUint32, u32add, uint32Size, heq, ne_eq, not_true_eq_false,
        false_and, and_false, if_false]
      omega

/-- C6 at effective weight 2^32 - 1 (unchanged) and at effective weight 7 (becomes 8). -/
theorem done_success_saturating_witness :
    (conn.Done ⟨none⟩
        { SubConn := none, connInfo := none, name := "a",
          weight := 3, efficientWeight := 4294967295, currentWeight := 0 }).efficientWeight
        = MaxUint32 ∧
      (conn.Done ⟨none⟩
        { SubConn := none, connInfo := none, name := "b",
          weight := 0, efficientWeight := 7, currentWeight := 0 }).efficientWeight = 7 + 1 :=
  ⟨(done_success_saturating _ ⟨none⟩ rfl (by decide)).2.1 rfl,
   (done_success_saturating _ ⟨none⟩ rfl (by decide)).1 (by decide)⟩

/-- C7: an entry whose static weight is 0 is left unchanged, its effective weight
included, by any finite sequence of callbacks that all carry a failure outcome. -/
theorem drain_exemption (c : conn) (hw : c.weight = 0) (infos : List DoneInfo)
    (hfail : ∀ info ∈ infos, info.Err ≠ none) :
    (conn.DoneAll infos c).efficientWeight = c.efficientWeight ∧ conn.DoneAll infos c = c := by
  have key : conn.DoneAll infos c = c := by
    induction infos with
    | nil => rfl
    | cons info rest ih =>
      have h1 : conn.Done info c = c := by
        have := hfail info (List.mem_cons_self _ _)
        simp [conn.Done, hw, this]
      simp only [conn.DoneAll, List.foldl_cons, h1]
      exact ih fun i hi => hfail i (List.mem_cons_of_mem _ hi)
  exact ⟨by rw [key], key⟩

/-- C7 at an entry of static weight 0 and effective weight 6 that receives three failures. -/
theorem drain_exemption_witness :
    (conn.DoneAll [⟨some "e1"⟩, ⟨some "e2"⟩, ⟨some "e3"⟩]
        { SubConn := none, connInfo := none, name := "a",
          weight := 0, efficientWeight := 6, currentWeight := 2 }).efficientWeight = 6 :=
  (drain_exemption
    { SubConn := none, connInfo := none, name := "a",
      weight := 0, efficientWeight := 6, currentWeight := 2 } rfl
    [⟨some "e1"⟩, ⟨some "e2"⟩, ⟨some "e3"⟩] (by decide)).1

/-- C8: the picker returned by `Build` has as many entries as the ready set, in the order
of the ready set; the entry of a backend carries that backend's handle and info, its name
is the backend's address, and its three weight fields all equal the weight function at
the backend's info. Handles that are distinct in the ready set are distinct in the
picker. Every field of every entry is thereby fixed by the ready set and the weight
function alone. -/
theorem build_entries (b : PickerBuilder) (readySCs : List (SubConn × SubConnInfo)) :
    (b.Build readySCs).connections.length = readySCs.length ∧
      (∀ i sc ci, readySCs.get? i = some (sc, ci) →
        (b.Build readySCs).connections.get? i =
          some { SubConn := some sc, connInfo := some ci, name := ci.Address.Addr,
                 weight := b.getWeightFunc ci, efficientWeight := b.getWeightFunc ci,
                 currentWeight := b.getWeightFunc ci }) ∧
      ((readySCs.map Prod.fst).Nodup →
        ((b.Build readySCs).connections.map conn.SubConn).Nodup) := by
  refine ⟨by simp [PickerBuilder.Build], fun i sc ci h => ?_, fun hnd => ?_⟩
  · rw [List.get?_eq_getElem?] at h
    simp [PickerBuilder.Build, List.getElem?_map, h]
  · have hmap : (b.Build readySCs).connections.map conn.SubConn
        = (readySCs.map Prod.fst).map some := by
      simp [PickerBuilder.Build, List.map_map, Function.comp_def]
    rw [hmap]
    exact hnd.map (Option.some_injective _)

/-- C8 on the ready set of the test with the constant weight function 7. -/
theorem build_entries_witness :
    ((WithGetWeightFunc (fun _ => 7) NewPickerBuilder).Build testReadySCs).connections.length
        = 3 ∧
      (((WithGetWeightFunc (fun _ => 7) NewPickerBuilder).Build testReadySCs).connections.map
        conn.SubConn).Nodup :=
  ⟨(build_entries (WithGetWeightFunc (fun _ => 7) NewPickerBuilder) testReadySCs).1,
   (build_entries (WithGetWeightFunc (fun _ => 7) NewPickerBuilder) testReadySCs).2.2
     (by decide)⟩

/-- C9: the default weight function returns 10 when the metadata is absent or is not a
`map[string]any`, but it returns 0, not 10, when the map has no key "weight" and when the
value under "weight" is not a `uint32`. -/
theorem default_weight_missing_key :
    defaultGetWeight { Address := { Addr := "a", Metadata := GoAny.nil } } = 10 ∧
      defaultGetWeight
        { Address := { Addr := "a", Metadata := GoAny.mapStringString [("weight", "15")] } }
        = 10 ∧
      defaultGetWeight { Address := { Addr := "a", Metadata := GoAny.mapStringAny [] } } = 0 ∧
      defaultGetWeight
        { Address := { Addr := "a",
                       Metadata := GoAny.mapStringAny [("weight", GoAny.string "15")] } } = 0 ∧
      defaultGetWeight
        { Address := { Addr := "a",
                       Metadata := GoAny.mapStringAny [("weight", GoAny.int 15)] } } = 0 := by
  refine ⟨?_, ?_, ?_, ?_, ?_⟩ <;> rfl

/-- C10: when the metadata of a backend is a `map[string]any` holding the `uint32` value
`v` under the key "weight", the default weight function returns `v`, and the picker built
by the default builder gives the entry of that backend static weight `v`. -/
theorem default_weight_extraction (ci : SubConnInfo) (md : List (String × GoAny)) (v : Nat)
    (hmd : ci.Address.Metadata = GoAny.mapStringAny md)
    (hv : md.lookup "weight" = some (GoAny.uint32 v)) :
    defaultGetWeight ci = v ∧
      ∀ (readySCs : List (SubConn × SubConnInfo)) (i : Nat) (sc : SubConn),
        readySCs.get? i = some (sc, ci) →
          ((NewPickerBuilder.Build readySCs).connections.get? i).map conn.weight = some v := by
  have hw : defaultGetWeight ci = v := by
    simp [defaultGetWeight, hmd, GoAny.index, hv]
  refine ⟨hw, fun readySCs i sc h => ?_⟩
  rw [List.get?_eq_getElem?] at h
  simp [PickerBuilder.Build, NewPickerBuilder, List.getElem?_map, h, hw]

/-- C10 on the "default" case of the test: the second backend gets static weight 20. -/
theorem default_weight_extraction_witness :
    defaultGetWeight
        { Address := { Addr := "weight-2",
                       Metadata := GoAny.mapStringAny [("weight", GoAny.uint32 20)] } } = 20 ∧
      ((NewPickerBuilder.Build testReadySCs).connections.get? 1).map conn.weight = some 20 :=
  ⟨(default_weight_extraction _ [("weight", GoAny.uint32 20)] 20 rfl rfl).1,
   (default_weight_extraction
      { Address := { Addr := "weight-2",
                     Metadata := GoAny.mapStringAny [("weight", GoAny.uint32 20)] } }
      [("weight", GoAny.uint32 20)] 20 rfl rfl).2 testReadySCs 1 2 rfl⟩

/-! ### Frame lemmas for `Pick` and `Done` -/

theorem Pick.scan_fst (l : List conn) (i t : Nat) (mc : Option (Nat × conn)) :
    (Pick.scan l i t mc).1 = l.map conn.scanned := by
  induction l generalizing i t mc with
  | nil => rfl
  | cons c cs ih => simp [Pick.scan, ih, conn.scanned]

theorem updateAt_map {α : Type} (g : conn → α) (f : conn → conn) (hf : ∀ c, g (f c) = g c)
    (l : List conn) (i : Nat) : (updateAt f l i).map g = l.map g := by
  induction l generalizing i with
  | nil => rfl
  | cons c cs ih =>
    cases i with
    | zero => simp [updateAt, hf]
    | succ j => simp [updateAt, ih]

theorem updateAt_get?_ne (f : conn → conn) (l : List conn) (i j : Nat) (h : j ≠ i) :
    (updateAt f l i).get? j = l.get? j := by
  induction l generalizing i j with
  | nil => rfl
  | cons c cs ih =>
    cases i with
    | zero =>
      cases j with
      | zero => exact absurd rfl h
      | succ k => rfl
    | succ i1 =>
      cases j with
      | zero => rfl
      | succ k =>
        simp only [updateAt, List.get?_cons_succ]
        exact ih i1 k (fun hk => h (by rw [hk]))

theorem updateAt_get?_eq (f : conn → conn) (l : List conn) (i : Nat) :
    (updateAt f l i).get? i = (l.get? i).map f := by
  induction l generalizing i with
  | nil => rfl
  | cons c cs ih =>
    cases i with
    | zero => rfl
    | succ i1 =>
      simp only [updateAt, List.get?_cons_succ]
      exact ih i1

/-- A field that the write to `currentWeight` does not touch is the same, entry by entry,
after `Pick`. -/
theorem Picker.Pick_map {α : Type} (g : conn → α)
    (hg : ∀ (c : conn) (v : Nat), g { c with currentWeight := v } = g c) (p : Picker) :
    p.Pick.2.connections.map g = p.connections.map g := by
  unfold Picker.Pick
  split_ifs with h0
  · rfl
  · simp only
    split
    · simp [Pick.scan_fst, List.map_map, Function.comp_def, conn.scanned, hg]
    · rw [updateAt_map g _ (fun c => hg c _)]
      simp [Pick.scan_fst, List.map_map, Function.comp_def, conn.scanned, hg]

theorem conn.Done_frame {α : Type} (g : conn → α)
    (hg : ∀ (c : conn) (v : Nat), g { c with efficientWeight := v } = g c)
    (info : DoneInfo) (c : conn) : g (conn.Done info c) = g c := by
  unfold conn.Done
  split_ifs <;> simp [hg]

/-- A field that the write to `efficientWeight` does not touch is the same, entry by
entry, after `Done`. -/
theorem Picker.Done_map {α : Type} (g : conn → α)
    (hg : ∀ (c : conn) (v : Nat), g { c with efficientWeight := v } = g c)
    (res : PickResult) (info : DoneInfo) (p : Picker) :
    (p.Done res info).connections.map g = p.connections.map g :=
  updateAt_map g _ (conn.Done_frame g hg info) _ _

/-- A field touched neither by the write to `currentWeight` nor by the write to
`efficientWeight` is the same, entry by entry, after any sequence of calls. -/
theorem Picker.run_map {α : Type} (g : conn → α)
    (hc : ∀ (c : conn) (v : Nat), g { c with currentWeight := v } = g c)
    (he : ∀ (c : conn) (v : Nat), g { c with efficientWeight := v } = g c)
    (acts : List Action) (p : Picker) :
    (p.run acts).connections.map g = p.connections.map g := by
  induction acts generalizing p with
  | nil => rfl
  | cons a rest ih =>
    have hstep : (p.step a).connections.map g = p.connections.map g := by
      cases a with
      | pick => exact Picker.Pick_map g hc p
      | done res info => exact Picker.Done_map g he res info p
    simp only [Picker.run, List.foldl_cons] at ih ⊢
    rw [ih (p.step a), hstep]

/-- C11: in every state reached from a `Build` result by any finite sequence of `Pick`
calls and `Done` invocations (any entry, any outcome, any order), the entry list has the
length and order of build time: entry by entry the backend handle, the backend info, the
name and the static weight are those that `Build` gave. -/
theorem snapshot_structure_invariant (b : PickerBuilder)
    (readySCs : List (SubConn × SubConnInfo)) (acts : List Action) :
    ((b.Build readySCs).run acts).connections.length = readySCs.length ∧
      ((b.Build readySCs).run acts).connections.map conn.SubConn
        = readySCs.map (fun p => some p.1) ∧
      ((b.Build readySCs).run acts).connections.map conn.connInfo
        = readySCs.map (fun p => some p.2) ∧
      ((b.Build readySCs).run acts).connections.map conn.name
        = readySCs.map (fun p => p.2.Address.Addr) ∧
      ((b.Build readySCs).run acts).connections.map conn.weight
        = readySCs.map (fun p => b.getWeightFunc p.2) := by
  have hS := Picker.run_map conn.SubConn (fun _ _ => rfl) (fun _ _ => rfl) acts
    (b.Build readySCs)
  have hI := Picker.run_map conn.connInfo (fun _ _ => rfl) (fun _ _ => rfl) acts
    (b.Build readySCs)
  have hN := Picker.run_map conn.name (fun _ _ => rfl) (fun _ _ => rfl) acts
    (b.Build readySCs)
  have hW := Picker.run_map conn.weight (fun _ _ => rfl) (fun _ _ => rfl) acts
    (b.Build readySCs)
  refine ⟨?_, ?_, ?_, ?_, ?_⟩
  · have := congrArg List.length hW
    simpa [PickerBuilder.Build] using this
  · rw [hS]; simp [PickerBuilder.Build]
  · rw [hI]; simp [PickerBuilder.Build]
  · rw [hN]; simp [PickerBuilder.Build]
  · rw [hW]; simp [PickerBuilder.Build]


theorem conn.Done_eq_with (info : DoneInfo) (c : conn) :
    conn.Done info c = { c with efficientWeight := (conn.Done info c).efficientWeight } := by
  unfold conn.Done
  split_ifs <;> rfl

/-- C12: `Pick` leaves the effective weight of every entry unchanged. The `Done` closure
of a pick result, invoked with any outcome on any later state, leaves every other entry
unchanged in every field, and changes nothing but the effective weight of the entry the
result selected: that entry keeps its current weight, its static weight and its other
fields. -/
theorem effective_weight_frame (p : Picker) (res : PickResult) (info : DoneInfo) :
    p.Pick.2.connections.map conn.efficientWeight = p.connections.map conn.efficientWeight ∧
      (∀ j, j ≠ res.SubConn → (p.Done res info).connections.get? j = p.connections.get? j) ∧
      (∀ c, p.connections.get? res.SubConn = some c →
        ∃ e, (p.Done res info).connections.get? res.SubConn
          = some { c with efficientWeight := e }) := by
  refine ⟨Picker.Pick_map conn.efficientWeight (fun _ _ => rfl) p, fun j hj => ?_,
    fun c hc => ?_⟩
  · exact updateAt_get?_ne _ _ _ _ hj
  · refine ⟨(conn.Done info c).efficientWeight, ?_⟩
    simp only [Picker.Done]
    rw [updateAt_get?_eq, hc, Option.map_some', ← conn.Done_eq_with]

/-- C12 on the picker of the test after two picks: the callback of the first pick
(entry 0) leaves entry 1 as it is and keeps the current weight of entry 0. -/
theorem effective_weight_frame_witness :
    (testPicker.Pick.2.Pick.2.Done ⟨0⟩ ⟨none⟩).connections.get? 1
        = testPicker.Pick.2.Pick.2.connections.get? 1 ∧
      ∃ e, (testPicker.Pick.2.Pick.2.Done ⟨0⟩ ⟨none⟩).connections.get? 0
        = some { SubConn := none, connInfo := none, name := "weight-5",
                 weight := 5, efficientWeight := e, currentWeight := 3 } :=
  ⟨(effective_weight_frame testPicker.Pick.2.Pick.2 ⟨0⟩ ⟨none⟩).2.1 1 (by decide),
   (effective_weight_frame testPicker.Pick.2.Pick.2 ⟨0⟩ ⟨none⟩).2.2 _ rfl⟩

/-- C17: a failure outcome (non-nil error) on an entry with nonzero static weight and
effective weight `e ≥ 1` sets the effective weight to exactly `e - 1`. -/
theorem done_failure_decrements (c : conn) (info : DoneInfo) (hinfo : info.Err ≠ none)
    (hw : c.weight ≠ 0) (he : 1 ≤ c.efficientWeight) (hmax : c.efficientWeight ≤ MaxUint32) :
    (conn.Done info c).efficientWeight = c.efficientWeight - 1 := by
  unfold MaxUint32 at hmax
  simp only [conn.Done, hinfo, hw, ne_eq, not_false_eq_true, and_false, false_and, if_false,
    if_true, u32sub, uint32Size]
  omega

/-- C17 at an entry of static weight 5 and effective weight 3: a failure gives 2. -/
theorem done_failure_decrements_witness :
    (conn.Done ⟨some "rpc error"⟩
        { SubConn := none, connInfo := none, name := "a",
          weight := 5, efficientWeight := 3, currentWeight := 0 }).efficientWeight = 3 - 1 :=
  done_failure_decrements _ ⟨some "rpc error"⟩ (by decide) (by decide) (by decide) (by decide)


/-! ### The selection made by the scan -/

/-- The best entry at the end of the scan, started with best entry `m` at index `j`:
its counter bounds the counter of every visited entry, and it is either `m` itself or
the first visited entry whose counter is strictly greater than all before it and `m`. -/
theorem Pick.scan_best (l : List conn) (i t j : Nat) (m : conn) :
    ∃ k mk, (Pick.scan l i t (some (j, m))).2.2 = some (k, mk) ∧
      (∀ e y, l.get? e = some y → y.scanned.currentWeight ≤ mk.currentWeight) ∧
      ((k = j ∧ mk = m) ∨
        ∃ d x, k = i + d ∧ l.get? d = some x ∧ mk = x.scanned ∧
          m.currentWeight < mk.currentWeight ∧
          ∀ e y, e < d → l.get? e = some y → y.scanned.currentWeight < mk.currentWeight) := by
  induction l generalizing i t j m with
  | nil => exact ⟨j, m, rfl, fun e y h => by simp at h, Or.inl ⟨rfl, rfl⟩⟩
  | cons c cs ih =>
    by_cases hgt : c.scanned.currentWeight > m.currentWeight
    · obtain ⟨k, mk, hres, hall, hcase⟩ :=
        ih (i + 1) (u32add t c.efficientWeight) i c.scanned
      have hres1 : (Pick.scan (c :: cs) i t (some (j, m))).2.2 = some (k, mk) := by
        have hgt1 : u32add c.currentWeight c.efficientWeight > m.currentWeight := hgt
        simp only [Pick.scan, hgt1, if_true]
        exact hres
      refine ⟨k, mk, hres1, ?_, Or.inr ?_⟩
      · intro e y hy
        cases e with
        | zero =>
          simp only [List.get?_cons_zero, Option.some.injEq] at hy
          subst hy
          rcases hcase with ⟨-, hmk⟩ | ⟨d, x, -, -, -, hlt, -⟩
          · rw [hmk]
          · exact Nat.le_of_lt hlt
        | succ e1 => exact hall e1 y (by simpa using hy)
      · rcases hcase with ⟨hk, hmk⟩ | ⟨d, x, hk, hx, hmk, hlt, hbefore⟩
        · refine ⟨0, c, by simpa using hk, rfl, hmk, by rw [hmk]; exact hgt, ?_⟩
          intro e y he
          exact absurd he (Nat.not_lt_zero e)
        · refine ⟨d + 1, x, by omega, by simpa using hx, hmk, lt_trans hgt hlt, ?_⟩
          intro e y he hy
          cases e with
          | zero =>
            simp only [List.get?_cons_zero, Option.some.injEq] at hy
            subst hy
            exact hlt
          | succ e1 => exact hbefore e1 y (by omega) (by simpa using hy)
    · obtain ⟨k, mk, hres, hall, hcase⟩ :=
        ih (i + 1) (u32add t c.efficientWeight) j m
      have hres1 : (Pick.scan (c :: cs) i t (some (j, m))).2.2 = some (k, mk) := by
        have hgt1 : ¬ u32add c.currentWeight c.efficientWeight > m.currentWeight := hgt
        simp only [Pick.scan, hgt1, if_false]
        exact hres
      have hle : c.scanned.currentWeight ≤ m.currentWeight := Nat.le_of_not_lt hgt
      refine ⟨k, mk, hres1, ?_, ?_⟩
      · intro e y hy
        cases e with
        | zero =>
          simp only [List.get?_cons_zero, Option.some.injEq] at hy
          subst hy
          rcases hcase with ⟨-, hmk⟩ | ⟨d, x, -, -, -, hlt, -⟩
          · rw [hmk]; exact hle
          · exact Nat.le_of_lt (lt_of_le_of_lt hle hlt)
        | succ e1 => exact hall e1 y (by simpa using hy)
      · rcases hcase with ⟨hk, hmk⟩ | ⟨d, x, hk, hx, hmk, hlt, hbefore⟩
        · exact Or.inl ⟨hk, hmk⟩
        · refine Or.inr ⟨d + 1, x, by omega, by simpa using hx, hmk, hlt, ?_⟩
          intro e y he hy
          cases e with
          | zero =>
            simp only [List.get?_cons_zero, Option.some.injEq] at hy
            subst hy
            exact lt_of_le_of_lt hle hlt
          | succ e1 => exact hbefore e1 y (by omega) (by simpa using hy)

/-- The scan of a whole non-empty list selects the first entry whose counter, after the
addition, is maximal. -/
theorem Pick.scan_first_max (c : conn) (cs : List conn) (t : Nat) :
    ∃ k mk x, (Pick.scan (c :: cs) 0 t none).2.2 = some (k, mk) ∧
      (c :: cs).get? k = some x ∧ mk = x.scanned ∧
      (∀ e y, (c :: cs).get? e = some y →
        y.scanned.currentWeight ≤ x.scanned.currentWeight) ∧
      (∀ e y, e < k → (c :: cs).get? e = some y →
        y.scanned.currentWeight < x.scanned.currentWeight) := by
  obtain ⟨k, mk, hres, hall, hcase⟩ :=
    Pick.scan_best cs 1 (u32add t c.efficientWeight) 0 c.scanned
  have hres1 : (Pick.scan (c :: cs) 0 t none).2.2 = some (k, mk) := by
    simp only [Pick.scan]
    exact hres
  rcases hcase with ⟨hk, hmk⟩ | ⟨d, x, hk, hx, hmk, hlt, hbefore⟩
  · refine ⟨k, mk, c, hres1, by rw [hk]; rfl, hmk, ?_, ?_⟩
    · intro e y hy
      cases e with
      | zero =>
        simp only [List.get?_cons_zero, Option.some.injEq] at hy
        rw [hy]
      | succ e1 =>
        have := hall e1 y (by simpa using hy)
        rwa [hmk] at this
    · intro e y he
      omega
  · refine ⟨k, mk, x, hres1, ?_, hmk, ?_, ?_⟩
    · rw [hk, Nat.add_comm]
      simpa using hx
    · intro e y hy
      cases e with
      | zero =>
        simp only [List.get?_cons_zero, Option.some.injEq] at hy
        subst hy
        rw [← hmk]
        exact Nat.le_of_lt hlt
      | succ e1 =>
        have := hall e1 y (by simpa using hy)
        rwa [hmk] at this
    · intro e y he hy
      cases e with
      | zero =>
        simp only [List.get?_cons_zero, Option.some.injEq] at hy
        subst hy
        rw [← hmk]
        exact hlt
      | succ e1 =>
        have := hbefore e1 y (by omega) (by simpa using hy)
        rwa [hmk] at this

/-- C14: on a non-empty picker, with `c_i = (currentWeight_i + efficientWeight_i) mod 2^32`
the counter of entry `i` after the addition of the scan, `Pick` succeeds and selects the
entry `b` with `c_j ≤ c_b` for every `j` and `c_j < c_b` for every `j < b`: the smallest
index whose counter is maximal under unsigned comparison. -/
theorem pick_selects_first_maximum (p : Picker) (hne : p.connections ≠ []) :
    ∃ res cb, p.Pick.1 = Except.ok res ∧ p.connections.get? res.SubConn = some cb ∧
      (∀ j cj, p.connections.get? j = some cj →
        (cj.currentWeight + cj.efficientWeight) % 4294967296
          ≤ (cb.currentWeight + cb.efficientWeight) % 4294967296) ∧
      (∀ j cj, j < res.SubConn → p.connections.get? j = some cj →
        (cj.currentWeight + cj.efficientWeight) % 4294967296
          < (cb.currentWeight + cb.efficientWeight) % 4294967296) := by
  obtain ⟨l⟩ := p
  cases l with
  | nil => exact absurd rfl hne
  | cons c cs =>
    obtain ⟨k, mk, x, hres, hx, -, hall, hbefore⟩ := Pick.scan_first_max c cs 0
    refine ⟨⟨k⟩, x, ?_, hx, hall, hbefore⟩
    simp [Picker.Pick, hres]

/-- C14 on the picker of the test: the first pick selects entry 0, whose counter 10 is
the maximum of 10, 8, 6. -/
theorem pick_selects_first_maximum_witness :
    ∃ res cb, testPicker.Pick.1 = Except.ok res ∧
      testPicker.connections.get? res.SubConn = some cb ∧
      (∀ j cj, testPicker.connections.get? j = some cj →
        (cj.currentWeight + cj.efficientWeight) % 4294967296
          ≤ (cb.currentWeight + cb.efficientWeight) % 4294967296) ∧
      (∀ j cj, j < res.SubConn → testPicker.connections.get? j = some cj →
        (cj.currentWeight + cj.efficientWeight) % 4294967296
          < (cb.currentWeight + cb.efficientWeight) % 4294967296) :=
  pick_selects_first_maximum testPicker (by simp [testPicker])


/-! ### The state after one pick -/

theorem Pick.scan_total (l : List conn) (i t : Nat) (mc : Option (Nat × conn)) :
    (Pick.scan l i (t % uint32Size) mc).2.1
      = (t + (l.map conn.efficientWeight).sum) % uint32Size := by
  induction l generalizing i t mc with
  | nil => simp [Pick.scan]
  | cons c cs ih =>
    simp only [Pick.scan, List.map_cons, List.sum_cons]
    have h : u32add (t % uint32Size) c.efficientWeight
        = (t + c.efficientWeight) % uint32Size := by
      simp [u32add, Nat.mod_add_mod]
    rw [h, ih, Nat.add_assoc]

/-- The result of `Pick` on a non-empty list: an index `k` inside the list, and the
scanned entries with the total subtracted from the counter of entry `k`. -/
theorem Picker.Pick_ne_nil_eq (p : Picker) (hne : p.connections ≠ []) :
    ∃ k, k < p.connections.length ∧
      p.Pick = (Except.ok ⟨k⟩,
        ⟨updateAt
          (fun x => { x with currentWeight := u32sub x.currentWeight (totalOf p.connections) })
          (p.connections.map conn.scanned) k⟩) := by
  obtain ⟨l⟩ := p
  cases l with
  | nil => exact absurd rfl hne
  | cons c cs =>
    obtain ⟨m1, h1, -, h3⟩ := Pick.scan_none_cons c cs 0 0
    have ht := Pick.scan_total (c :: cs) 0 0 none
    rw [Nat.zero_mod, Nat.zero_add] at ht
    refine ⟨m1.1, by simpa using h3, ?_⟩
    simp only [Picker.Pick, List.length_cons, Nat.add_one_ne_zero, if_false, h1, ht,
      Pick.scan_fst, totalOf]

theorem List.get?_map_scanned (l : List conn) (j : Nat) (c : conn) (h : l.get? j = some c) :
    (l.map conn.scanned).get? j = some c.scanned := by
  rw [List.get?_eq_getElem?] at h ⊢
  simp [List.getElem?_map, h]

/-- C15: on a non-empty picker with `T = (sum of all efficientWeight) mod 2^32`, after a
`Pick` that selects entry `b` every other entry `i` has
`currentWeight_i = (currentWeight_i + efficientWeight_i) mod 2^32` of the old values, and
the selected entry has `(currentWeight_b + efficientWeight_b - T) mod 2^32`. -/
theorem pick_state_update (p : Picker) (hne : p.connections ≠ []) :
    ∃ res, p.Pick.1 = Except.ok res ∧
      ∀ j c, p.connections.get? j = some c →
        ∃ c1, p.Pick.2.connections.get? j = some c1 ∧
          (j ≠ res.SubConn →
            c1.currentWeight = (c.currentWeight + c.efficientWeight) % 4294967296) ∧
          (j = res.SubConn →
            (c1.currentWeight : Int)
              = ((c.currentWeight : Int) + (c.efficientWeight : Int)
                  - (((p.connections.map conn.efficientWeight).sum % 4294967296 : Nat) : Int))
                % 4294967296) := by
  obtain ⟨k, -, hk⟩ := Picker.Pick_ne_nil_eq p hne
  refine ⟨⟨k⟩, by rw [hk], fun j c hc => ?_⟩
  have hsc := List.get?_map_scanned p.connections j c hc
  by_cases hj : j = k
  · subst hj
    refine ⟨_, by rw [hk]; simp only; rw [updateAt_get?_eq, hsc]; rfl, fun h => absurd rfl h,
      fun _ => ?_⟩
    simp only [conn.scanned, u32sub, u32add, totalOf, uint32Size]
    generalize (p.connections.map conn.efficientWeight).sum = s
    omega
  · refine ⟨c.scanned, by rw [hk]; simp only; rw [updateAt_get?_ne _ _ _ _ hj, hsc],
      fun _ => rfl, fun h => absurd h hj⟩

/-- C15 on the picker of the test (total 12, entry 0 selected): the counters after the
first pick are 10 - 12 modulo 2^32, 8 and 6. -/
theorem pick_state_update_witness :
    ∃ res, testPicker.Pick.1 = Except.ok res ∧
      ∀ j c, testPicker.connections.get? j = some c →
        ∃ c1, testPicker.Pick.2.connections.get? j = some c1 ∧
          (j ≠ res.SubConn →
            c1.currentWeight = (c.currentWeight + c.efficientWeight) % 4294967296) ∧
          (j = res.SubConn →
            (c1.currentWeight : Int)
              = ((c.currentWeight : Int) + (c.efficientWeight : Int)
                  - (((testPicker.connections.map conn.efficientWeight).sum
                      % 4294967296 : Nat) : Int))
                % 4294967296) :=
  pick_state_update testPicker (by simp [testPicker])


/-! ### Conservation of the sum of the counters -/

theorem sum_currentWeight_scanned (l : List conn) :
    ((l.map conn.scanned).map conn.currentWeight).sum % 4294967296
      = ((l.map conn.currentWeight).sum + (l.map conn.efficientWeight).sum) % 4294967296 := by
  induction l with
  | nil => rfl
  | cons c cs ih =>
    simp only [List.map_cons, List.sum_cons, conn.scanned, u32add, uint32Size]
    simp only [conn.scanned] at ih
    omega

theorem sum_currentWeight_updateAt (T : Nat) (l : List conn) (k : Nat) (hk : k < l.length) :
    (((updateAt (fun x => { x with currentWeight := u32sub x.currentWeight T }) l k).map
        conn.currentWeight).sum + T) % 4294967296
      = (l.map conn.currentWeight).sum % 4294967296 := by
  induction l generalizing k with
  | nil => simp at hk
  | cons c cs ih =>
    cases k with
    | zero =>
      simp only [updateAt, List.map_cons, List.sum_cons, u32sub, uint32Size]
      omega
    | succ k1 =>
      have := ih k1 (by simpa using hk)
      simp only [updateAt, List.map_cons, List.sum_cons]
      omega

/-- One `Pick` leaves the sum of the counters unchanged modulo `2 ^ 32`. -/
theorem Picker.Pick_sum_currentWeight (p : Picker) :
    (p.Pick.2.connections.map conn.currentWeight).sum % 4294967296
      = (p.connections.map conn.currentWeight).sum % 4294967296 := by
  by_cases hne : p.connections = []
  · rw [Picker.Pick_nil p hne]
  · obtain ⟨k, hlt, hk⟩ := Picker.Pick_ne_nil_eq p hne
    have h1 := sum_currentWeight_updateAt (totalOf p.connections)
      (p.connections.map conn.scanned) k (by simpa using hlt)
    have h2 := sum_currentWeight_scanned p.connections
    rw [hk]
    simp only [totalOf, uint32Size] at h1 ⊢
    omega

theorem Picker.step_sum_currentWeight (p : Picker) (a : Action) :
    ((p.step a).connections.map conn.currentWeight).sum % 4294967296
      = (p.connections.map conn.currentWeight).sum % 4294967296 := by
  cases a with
  | pick => exact Picker.Pick_sum_currentWeight p
  | done res info =>
    simp only [Picker.step]
    rw [Picker.Done_map conn.currentWeight (fun _ _ => rfl) res info p]

theorem Picker.run_sum_currentWeight (p : Picker) (acts : List Action) :
    ((p.run acts).connections.map conn.currentWeight).sum % 4294967296
      = (p.connections.map conn.currentWeight).sum % 4294967296 := by
  induction acts generalizing p with
  | nil => rfl
  | cons a rest ih =>
    simp only [Picker.run, List.foldl_cons] at ih ⊢
    rw [ih (p.step a), Picker.step_sum_currentWeight]

/-- C18: a `Pick` call leaves the sum of all entries' `currentWeight` unchanged modulo
`2 ^ 32`; hence in every state reached from a `Build` result by `Pick` calls and `Done`
invocations the sum of `currentWeight` is congruent modulo `2 ^ 32` to the sum of the
static weights, which is the sum of the weight function over the ready set. -/
theorem counter_sum_conserved (p : Picker) (b : PickerBuilder)
    (readySCs : List (SubConn × SubConnInfo)) (acts : List Action) :
    (p.Pick.2.connections.map conn.currentWeight).sum % 4294967296
        = (p.connections.map conn.currentWeight).sum % 4294967296 ∧
      (((b.Build readySCs).run acts).connections.map conn.currentWeight).sum % 4294967296
        = (((b.Build readySCs).run acts).connections.map conn.weight).sum % 4294967296 ∧
      (((b.Build readySCs).run acts).connections.map conn.weight).sum
        = (readySCs.map fun q => b.getWeightFunc q.2).sum := by
  refine ⟨Picker.Pick_sum_currentWeight p, ?_, ?_⟩
  · rw [Picker.run_sum_currentWeight,
      Picker.run_map conn.weight (fun _ _ => rfl) (fun _ _ => rfl) acts]
    simp [PickerBuilder.Build, Function.comp_def]
  · rw [Picker.run_map conn.weight (fun _ _ => rfl) (fun _ _ => rfl) acts]
    simp [PickerBuilder.Build, Function.comp_def]


/-! ### Comparison with the signed reference scheduler -/

/-- C16: four backends of weight 1 (all positive, sum 4 below 2^31), no callback: the
reference scheduler with a signed counter selects entries 0, 1, 2, 3 in its first four
picks, while the program selects entry 0 four times; they differ from the second pick
on. -/
theorem unsigned_pick_departs_from_reference :
    (NewPickerBuilder.Build (readyWeights [1, 1, 1, 1])).connections.map conn.weight
        = [1, 1, 1, 1] ∧
      (Reference.picks 4
          (Reference.ofPicker (NewPickerBuilder.Build (readyWeights [1, 1, 1, 1])))).1
        = [some 0, some 1, some 2, some 3] ∧
      ((NewPickerBuilder.Build (readyWeights [1, 1, 1, 1])).picks 4).1.map selectedIndex
        = [some 0, some 0, some 0, some 0] ∧
      ((NewPickerBuilder.Build (readyWeights [1, 1, 1, 1])).picks 2).1.map selectedIndex
        ≠ (Reference.picks 2
          (Reference.ofPicker (NewPickerBuilder.Build (readyWeights [1, 1, 1, 1])))).1 ∧
      (Reference.picks 1
          (Reference.ofPicker (NewPickerBuilder.Build (readyWeights [1, 1, 1, 1])))).2.map
            BackendEntry.currentWeight = [-2, 2, 2, 2] ∧
      ((NewPickerBuilder.Build (readyWeights [1, 1, 1, 1])).picks 1).2.connections.map
        conn.currentWeight = [4294967294, 2, 2, 2] := by
  refine ⟨?_, ?_, ?_, ?_, ?_, ?_⟩ <;> decide


/-! ### Lock discipline -/

/-- C13: in the scan of `Pick` the comparison of line 82 reads the `currentWeight` of the
current best entry while only the mutex of the entry being visited is held. On every
picker with at least two entries the first such access is the read of entry 0 made while
visiting entry 1. The `Done` closure, in contrast, makes every access under the mutex of
its entry. -/
theorem scan_reads_best_without_its_lock :
    firstUnguarded [] testPicker.PickEvents
        = some (Event.read 0 Field.currentWeight, [1]) ∧
      (∀ (c0 c1 : conn) (cs : List conn),
        firstUnguarded [] (Picker.PickEvents ⟨c0 :: c1 :: cs⟩)
          = some (Event.read 0 Field.currentWeight, [1])) ∧
      (∀ (i : Nat) (info : DoneInfo) (c : conn),
        firstUnguarded [] (conn.DoneEvents i info c) = none) := by
  refine ⟨by decide, fun c0 c1 cs => ?_, fun i info c => ?_⟩
  · simp [Picker.PickEvents, Pick.scanEvents, firstUnguarded]
  · unfold conn.DoneEvents
    by_cases he : info.Err = none <;> split_ifs <;> simp_all [firstUnguarded]

/-! ### The test scenario over a full cycle -/

theorem Picker.picks_add (m n : Nat) (p : Picker) :
    p.picks (m + n)
      = ((p.picks m).1 ++ ((p.picks m).2.picks n).1, ((p.picks m).2.picks n).2) := by
  induction m generalizing p with
  | zero => simp [Picker.picks]
  | succ k ih =>
    rw [Nat.add_right_comm]
    simp only [Picker.picks, ih, List.cons_append]

/-- C19: on the picker of the test, twelve successive `Pick` calls without callback
select weight-5 five times, weight-4 four times and weight-3 three times, never the same
entry twice in a row, and leave the picker in its initial state (counters 5, 4, 3); so
the selections of any longer run are these twelve followed by the selections of the rest
of the run from the initial state. -/
theorem test_cycle_of_twelve :
    (testPicker.picks 12).1.map selectedIndex
        = [some 0, some 1, some 2, some 0, some 1, some 0,
           some 2, some 1, some 0, some 2, some 0, some 1] ∧
      selectionCount 0 (testPicker.picks 12).1 = 5 ∧
      selectionCount 1 (testPicker.picks 12).1 = 4 ∧
      selectionCount 2 (testPicker.picks 12).1 = 3 ∧
      List.Chain' (fun a b => a ≠ b) ((testPicker.picks 12).1.map selectedIndex) ∧
      (testPicker.picks 12).2.connections.map conn.currentWeight = [5, 4, 3] ∧
      (testPicker.picks 12).2 = testPicker ∧
      ∀ n, (testPicker.picks (12 + n)).1
        = (testPicker.picks 12).1 ++ (testPicker.picks n).1 := by
  have hstate : (testPicker.picks 12).2 = testPicker := by rfl
  have hseq : (testPicker.picks 12).1.map selectedIndex
      = [some 0, some 1, some 2, some 0, some 1, some 0,
         some 2, some 1, some 0, some 2, some 0, some 1] := by decide
  refine ⟨hseq, by decide, by decide, by decide, ?_, by decide, hstate, fun n => ?_⟩
  · rw [hseq]
    simp
  · rw [Picker.picks_add 12 n testPicker, hstate]

end wrr
